import Mathlib

/-!
Verification of the binary-trie route compressor (`src/tree.rs`).

The Rust code is shallowly embedded: `Node` mirrors the trie node struct,
`Node.dp` mirrors `Node::dp` (its two `assert!`s become `Except` errors,
modelling the panic), `Node.generate` mirrors `Node::generate`,
`Tree.mark` mirrors `Tree::mark`, and `generateV4` mirrors
`Tree::generate_v4` (a `panic!` anywhere — a failed assertion, an
out-of-bounds `gateways[color - 1]` lookup, or `Ipv4Net::new(..).unwrap()`
— is modelled as `none`).  Machine integers (`usize`, `u8`, `u16`) are
modelled as `Nat`; the only place truncation matters is `bits.len() as u8`,
modelled as `% 256`.  All vectors within one tree have uniform length
`colors + 1` (they are all created by `Node::new(self.colors)`), so Rust's
panicking index `v[i]` is modelled as `List.getD` — the two never differ
on reachable states.
-/

namespace Lessroutes

/-- `std::usize::MAX` on a 64-bit target (only ever used as a sentinel that
`dp` overwrites before reading). -/
def usizeMax : Nat := 2 ^ 64 - 1

/-- The trie node of `tree.rs`: `children: [Option<Box<Node>>; 2]`,
`color: usize`, `num_routes: Vec<usize>`, `decision: Vec<Option<usize>>`. -/
inductive Node : Type where
  | mk (child0 child1 : Option Node) (color : Nat)
      (numRoutes : List Nat) (decision : List (Option Nat)) : Node

def Node.child0 : Node → Option Node
  | .mk c0 _ _ _ _ => c0

def Node.child1 : Node → Option Node
  | .mk _ c1 _ _ _ => c1

/-- `children[bit as usize]` (`false` selects index 0). -/
def Node.child (n : Node) (b : Bool) : Option Node :=
  if b then n.child1 else n.child0

def Node.color : Node → Nat
  | .mk _ _ c _ _ => c

def Node.numRoutes : Node → List Nat
  | .mk _ _ _ nr _ => nr

def Node.decision : Node → List (Option Nat)
  | .mk _ _ _ _ d => d

/-- `Node::new(colors)`. -/
def Node.new (colors : Nat) : Node :=
  .mk none none 0 (List.replicate (colors + 1) usizeMax)
    (List.replicate (colors + 1) none)

/-- The two assertions of `Node::dp`, as failure modes:
`assert_ne!(self.color, 0)` in the leaf branch and
`assert_eq!(self.color, 0)` in the internal branch. -/
inductive DpErr : Type where
  | leafColorZero : DpErr
  | internalColorNonzero : DpErr
deriving DecidableEq

/-- `child.num_routes[i]` summed as `0` for an absent child. -/
def childRoutes : Option Node → Nat → Nat
  | none, _ => 0
  | some t, i => t.numRoutes.getD i 0

/-- The `min_index` loop of `Node::dp`: `min_index = 0; for i in 1..len
{ if v[i] < v[min_index] { min_index = i } }`. -/
def argminIdx (l : List Nat) : Nat :=
  ((List.range l.length).drop 1).foldl
    (fun mi i => if l.getD i 0 < l.getD mi 0 then i else mi) 0

/-- Leaf branch of `dp`: `num_routes[i] = if i == color { 0 } else { 1 }`. -/
def dpLeafNum (color : Nat) (nr : List Nat) : List Nat :=
  (List.range nr.length).map fun i => if i = color then 0 else 1

/-- Leaf branch of `dp`: `decision[i] = if i == color { None } else
{ Some(i) }` — note the source stores `Some(i)`, the loop index, here.
Indices `≥ num_routes.len()` of the old vector are untouched. -/
def dpLeafDec (color : Nat) (nr : List Nat) (dec : List (Option Nat)) :
    List (Option Nat) :=
  ((List.range nr.length).map fun i => if i = color then none else some i)
    ++ dec.drop nr.length

/-- Internal branch of `dp` after both children have been processed:
compute `base`, take the argmin, and cap every entry at `min + 1`. -/
def dpInternal (c0 c1 : Option Node) (color : Nat) (nr : List Nat)
    (dec : List (Option Nat)) : Node :=
  let base := (List.range nr.length).map fun i =>
    childRoutes c0 i + childRoutes c1 i
  let mi := argminIdx base
  let m := base.getD mi 0
  Node.mk c0 c1 color
    (base.map fun v => if m + 1 < v then m + 1 else v)
    ((base.map fun v => if m + 1 < v then some mi else none)
      ++ dec.drop nr.length)

/-- `Node::dp`.  The color assertions fire before any recursion, exactly as
in the source; a child's failure propagates (the whole call panics). -/
def Node.dp : Node → Except DpErr Node
  | .mk none none color nr dec =>
    if color = 0 then .error .leafColorZero
    else .ok (.mk none none color (dpLeafNum color nr) (dpLeafDec color nr dec))
  | .mk (some t0) none color nr dec =>
    if color = 0 then
      match t0.dp with
      | .error e => .error e
      | .ok t0' => .ok (dpInternal (some t0') none color nr dec)
    else .error .internalColorNonzero
  | .mk none (some t1) color nr dec =>
    if color = 0 then
      match t1.dp with
      | .error e => .error e
      | .ok t1' => .ok (dpInternal none (some t1') color nr dec)
    else .error .internalColorNonzero
  | .mk (some t0) (some t1) color nr dec =>
    if color = 0 then
      match t0.dp with
      | .error e => .error e
      | .ok t0' =>
        match t1.dp with
        | .error e => .error e
        | .ok t1' => .ok (dpInternal (some t0') (some t1') color nr dec)
    else .error .internalColorNonzero

/-- The head of `Node::generate`: consult `decision[inherited]`; on
`Some(new_color)` push `(bits.clone(), new_color)` and switch. -/
def emitStep (dec : List (Option Nat)) (inh : Nat) (bits : List Bool) :
    Nat × List (List Bool × Nat) :=
  match dec.getD inh none with
  | some nc => (nc, [(bits, nc)])
  | none => (inh, [])

/-- `Node::generate`: emit here if decided, then recurse into present
children in order 0, 1, pushing the branch bit. -/
def Node.generate : Node → Nat → List Bool → List (List Bool × Nat)
  | .mk none none _ _ dec, inh, bits => (emitStep dec inh bits).2
  | .mk (some t0) none _ _ dec, inh, bits =>
    let s := emitStep dec inh bits
    s.2 ++ t0.generate s.1 (bits ++ [false])
  | .mk none (some t1) _ _ dec, inh, bits =>
    let s := emitStep dec inh bits
    s.2 ++ t1.generate s.1 (bits ++ [true])
  | .mk (some t0) (some t1) _ _ dec, inh, bits =>
    let s := emitStep dec inh bits
    s.2 ++ t0.generate s.1 (bits ++ [false]) ++ t1.generate s.1 (bits ++ [true])

/-- `get_bits(x: u8)`: the eight bits of a byte, bit 7 (value 128) first. -/
def getBits (x : Nat) : List Bool :=
  [x >>> 7 != 0,
   ((x >>> 6) &&& 1) != 0,
   ((x >>> 5) &&& 1) != 0,
   ((x >>> 4) &&& 1) != 0,
   ((x >>> 3) &&& 1) != 0,
   ((x >>> 2) &&& 1) != 0,
   ((x >>> 1) &&& 1) != 0,
   (x &&& 1) != 0]

/-- `get_octet(bits)`: pack eight booleans MSB-first into a byte. -/
def getOctet (bits : List Bool) : Nat :=
  ((bits.getD 0 false).toNat <<< 7) ||| ((bits.getD 1 false).toNat <<< 6)
    ||| ((bits.getD 2 false).toNat <<< 5) ||| ((bits.getD 3 false).toNat <<< 4)
    ||| ((bits.getD 4 false).toNat <<< 3) ||| ((bits.getD 5 false).toNat <<< 2)
    ||| ((bits.getD 6 false).toNat <<< 1) ||| (bits.getD 7 false).toNat

/-- `get_segment(bits)`: pack sixteen booleans into a 16-bit group. -/
def getSegment (bits : List Bool) : Nat :=
  (getOctet (bits.take 8) <<< 8) ||| getOctet (bits.drop 8)

/-- The trie: root node and number of colors `K`. -/
structure Tree : Type where
  root : Node
  colors : Nat

def Tree.new (colors : Nat) : Tree :=
  ⟨Node.new colors, colors⟩

/-- Path insertion inside `Tree::mark`: descend the bits, inserting
`Node::new(colors)` where a child is absent, and set the final color. -/
def markNode (colors : Nat) : Node → List Bool → Nat → Node
  | .mk c0 c1 _ nr dec, [], c => .mk c0 c1 c nr dec
  | n, bit :: rest, c =>
    if bit then
      .mk n.child0 (some (markNode colors ((n.child1).getD (Node.new colors)) rest c))
        n.color n.numRoutes n.decision
    else
      .mk (some (markNode colors ((n.child0).getD (Node.new colors)) rest c)) n.child1
        n.color n.numRoutes n.decision

/-- The bit iterator of `Tree::mark`: flatten `get_bits` over the octets
and take the first `prefix_len` bits. -/
def bitsOf (octets : List Nat) (prefixLen : Nat) : List Bool :=
  ((octets.map getBits).flatten).take prefixLen

/-- `Tree::mark(octets, prefix_len, color)` — note: no validation of any
argument is performed. -/
def Tree.mark (t : Tree) (octets : List Nat) (prefixLen color : Nat) : Tree :=
  ⟨markNode t.colors t.root (bitsOf octets prefixLen) color, t.colors⟩

/-- An `Ipv4Route` record; the address is kept as its four octets (the
field `prefix` of the Rust struct is named `prefixOctets` here because
`prefix` is a reserved word in Lean). -/
structure Ipv4Route : Type where
  prefixOctets : List Nat
  mask : Nat
  length : Nat
  gateway : String

/-- An `Ipv6Route` record, address kept as its eight 16-bit segments. -/
structure Ipv6Route : Type where
  prefixSegments : List Nat
  mask : Nat
  length : Nat
  gateway : String

/-- `Ipv4Net::netmask()` for a given length: the top `len` bits set. -/
def netmaskV4 (len : Nat) : Nat := 2 ^ 32 - 2 ^ (32 - len)

/-- `Ipv6Net::netmask()` for a given length. -/
def netmaskV6 (len : Nat) : Nat := 2 ^ 128 - 2 ^ (128 - len)

/-- `gateways[color - 1].gateway`: `color = 0` underflows the index and
panics (`none`), as does an out-of-range index. -/
def gatewayName (gws : List String) : Nat → Option String
  | 0 => none
  | c + 1 => gws.get? c

/-- `bits.chunks(8)` followed by `get_octet`, for the 32 padded bits. -/
def octetsOfBits (l : List Bool) : List Nat :=
  [getOctet (l.take 8), getOctet ((l.drop 8).take 8),
   getOctet ((l.drop 16).take 8), getOctet ((l.drop 24).take 8)]

/-- `bits.chunks(16)` followed by `get_segment`, for the 128 padded bits. -/
def segmentsOfBits (l : List Bool) : List Nat :=
  [getSegment (l.take 16), getSegment ((l.drop 16).take 16),
   getSegment ((l.drop 32).take 16), getSegment ((l.drop 48).take 16),
   getSegment ((l.drop 64).take 16), getSegment ((l.drop 80).take 16),
   getSegment ((l.drop 96).take 16), getSegment ((l.drop 112).take 16)]

/-- The body of the `map` in `Tree::generate_v4`: `prefix_len = bits.len()
as u8`, `bits.resize(32, false)`, pack octets, `Ipv4Net::new(..).unwrap()`
(panics when `prefix_len > 32`), look up the gateway. -/
def emitV4 (gws : List String) (p : List Bool × Nat) : Option Ipv4Route :=
  let prefixLen := p.1.length % 256
  let padded := p.1.take 32 ++ List.replicate (32 - p.1.length) false
  if prefixLen ≤ 32 then
    match gatewayName gws p.2 with
    | some g => some ⟨octetsOfBits padded, netmaskV4 prefixLen, prefixLen, g⟩
    | none => none
  else none

/-- The body of the `map` in `Tree::generate_v6`. -/
def emitV6 (gws : List String) (p : List Bool × Nat) : Option Ipv6Route :=
  let prefixLen := p.1.length % 256
  let padded := p.1.take 128 ++ List.replicate (128 - p.1.length) false
  if prefixLen ≤ 128 then
    match gatewayName gws p.2 with
    | some g => some ⟨segmentsOfBits padded, netmaskV6 prefixLen, prefixLen, g⟩
    | none => none
  else none

/-- `.map(..).collect()` over the pairs: any panic aborts the whole call. -/
def emitAllV4 (gws : List String) : List (List Bool × Nat) → Option (List Ipv4Route)
  | [] => some []
  | p :: ps =>
    match emitV4 gws p, emitAllV4 gws ps with
    | some r, some rs => some (r :: rs)
    | _, _ => none

/-- The front half of `Tree::generate_v4`/`_v6`: run `dp`, optionally
clear the root's decisions, and collect the `(bit-path, color)` pairs. -/
def generatePairs (t : Tree) (noDefaultGateway : Bool) :
    Except DpErr (List (List Bool × Nat)) :=
  match t.root.dp with
  | .error e => .error e
  | .ok r =>
    let r' := if noDefaultGateway then
        Node.mk r.child0 r.child1 r.color r.numRoutes
          (List.replicate (t.colors + 1) none)
      else r
    .ok (r'.generate 0 [])

/-- `Tree::generate_v4`. -/
def generateV4 (t : Tree) (gws : List String) (noDefaultGateway : Bool) :
    Option (List Ipv4Route) :=
  match generatePairs t noDefaultGateway with
  | .error _ => none
  | .ok ps => emitAllV4 gws ps

/-! ## Paths into the trie -/

/-- Follow a bit path from a node to the node it addresses, if present. -/
def follow : Node → List Bool → Option Node
  | n, [] => some n
  | n, b :: bs => (n.child b).bind (fun t => follow t bs)

/-- The color stored at a bit path, if the node exists. -/
def colorAt (n : Node) (q : List Bool) : Option Nat :=
  (follow n q).map Node.color

/-- A node exists at the bit path `q`. -/
def existsAt (n : Node) (q : List Bool) : Prop :=
  (follow n q).isSome = true

/-- Folding a list of `(bit path, color)` marks over a start node. -/
def markAll (colors : Nat) (ms : List (List Bool × Nat)) (n : Node) : Node :=
  ms.foldl (fun acc m => markNode colors acc m.1 m.2) n

/-- The trie built by a sequence of `mark` calls on a fresh tree. -/
def build (colors : Nat) (ms : List (List Bool × Nat)) : Node :=
  markAll colors ms (Node.new colors)

/-- The shape invariant `dp` asserts: childless nodes are colored, nodes
with a child are uncolored. -/
inductive WF : Node → Prop where
  | leaf : ∀ (color : Nat) (nr : List Nat) (dec : List (Option Nat)),
      color ≠ 0 → WF (.mk none none color nr dec)
  | int0 : ∀ (t0 : Node) (nr : List Nat) (dec : List (Option Nat)),
      WF t0 → WF (.mk (some t0) none 0 nr dec)
  | int1 : ∀ (t1 : Node) (nr : List Nat) (dec : List (Option Nat)),
      WF t1 → WF (.mk none (some t1) 0 nr dec)
  | int2 : ∀ (t0 t1 : Node) (nr : List Nat) (dec : List (Option Nat)),
      WF t0 → WF t1 → WF (.mk (some t0) (some t1) 0 nr dec)

/-- Depth of the trie: the length of its longest root-to-node path. -/
def Node.depth : Node → Nat
  | .mk none none _ _ _ => 0
  | .mk (some t0) none _ _ _ => t0.depth + 1
  | .mk none (some t1) _ _ _ => t1.depth + 1
  | .mk (some t0) (some t1) _ _ _ => max t0.depth t1.depth + 1

/-- The canonical MSB-first bit decoding of an octet value. -/
def octetBits (x : Nat) : List Bool :=
  (List.range 8).map fun j => x.testBit (7 - j)

/-- The canonical MSB-first bit decoding of a 16-bit segment value. -/
def segmentBits (x : Nat) : List Bool :=
  (List.range 16).map fun j => x.testBit (15 - j)

/-- `base[c]` of the internal `dp` case: the sum of the present children's
`num_routes[c]`. -/
def baseSum (c0 c1 : Option Node) (i : Nat) : Nat :=
  childRoutes c0 i + childRoutes c1 i

/-- The `min_index` loop of `dp` stopped after scanning indices `< m`. -/
def argminUpTo (l : List Nat) (m : Nat) : Nat :=
  ((List.range m).drop 1).foldl
    (fun mi i => if l.getD i 0 < l.getD mi 0 then i else mi) 0

/-- A marked leaf of color 1 with `K = 2` (as produced by `Node::new(2)`
followed by setting the color). -/
def exLeaf1 : Node :=
  .mk none none 1 (List.replicate 3 usizeMax) (List.replicate 3 none)

/-- A marked leaf of color 2 with `K = 2`. -/
def exLeaf2 : Node :=
  .mk none none 2 (List.replicate 3 usizeMax) (List.replicate 3 none)

/-- An internal node with two marked leaf children, one of each color. -/
def exInternal : Node :=
  .mk (some exLeaf1) (some exLeaf2) 0 (List.replicate 3 usizeMax)
    (List.replicate 3 none)

/-- The value `dp` computes for `exInternal`. -/
def exResult : Node :=
  .mk (some (.mk none none 1 [1, 0, 1] [some 0, none, some 2]))
    (some (.mk none none 2 [1, 1, 0] [some 0, some 1, none]))
    0 [2, 1, 1] [none, none, none]

@[simp] theorem follow_nil (n : Node) : follow n [] = some n := rfl

@[simp] theorem follow_cons (n : Node) (b : Bool) (bs : List Bool) :
    follow n (b :: bs) = (n.child b).bind (fun t => follow t bs) := rfl

@[simp] theorem colorAt_nil (n : Node) : colorAt n [] = some n.color := rfl

@[simp] theorem existsAt_nil (n : Node) : existsAt n [] := rfl

@[simp] theorem child0_mk (c0 c1 : Option Node) (col : Nat) (nr : List Nat)
    (dec : List (Option Nat)) : (Node.mk c0 c1 col nr dec).child0 = c0 := rfl

@[simp] theorem child1_mk (c0 c1 : Option Node) (col : Nat) (nr : List Nat)
    (dec : List (Option Nat)) : (Node.mk c0 c1 col nr dec).child1 = c1 := rfl

@[simp] theorem color_mk (c0 c1 : Option Node) (col : Nat) (nr : List Nat)
    (dec : List (Option Nat)) : (Node.mk c0 c1 col nr dec).color = col := rfl

@[simp] theorem numRoutes_mk (c0 c1 : Option Node) (col : Nat) (nr : List Nat)
    (dec : List (Option Nat)) : (Node.mk c0 c1 col nr dec).numRoutes = nr := rfl

@[simp] theorem decision_mk (c0 c1 : Option Node) (col : Nat) (nr : List Nat)
    (dec : List (Option Nat)) : (Node.mk c0 c1 col nr dec).decision = dec := rfl

theorem child_mk (c0 c1 : Option Node) (col : Nat) (nr : List Nat)
    (dec : List (Option Nat)) (b : Bool) :
    (Node.mk c0 c1 col nr dec).child b = if b then c1 else c0 := rfl

theorem markNode_nil (colors : Nat) (n : Node) (c : Nat) :
    markNode colors n [] c = .mk n.child0 n.child1 c n.numRoutes n.decision := by
  cases n
  rfl

theorem markNode_cons (colors : Nat) (n : Node) (b : Bool) (rest : List Bool) (c : Nat) :
    markNode colors n (b :: rest) c =
      if b then
        .mk n.child0 (some (markNode colors ((n.child1).getD (Node.new colors)) rest c))
          n.color n.numRoutes n.decision
      else
        .mk (some (markNode colors ((n.child0).getD (Node.new colors)) rest c)) n.child1
          n.color n.numRoutes n.decision := by
  cases n
  rfl

theorem child_markNode_cons (colors : Nat) (n : Node) (b : Bool) (rest : List Bool)
    (c : Nat) (b' : Bool) :
    (markNode colors n (b :: rest) c).child b' =
      if b' = b then some (markNode colors ((n.child b).getD (Node.new colors)) rest c)
      else n.child b' := by
  rw [markNode_cons]
  cases b <;> cases b' <;> simp [Node.child]

theorem color_markNode_cons (colors : Nat) (n : Node) (b : Bool) (rest : List Bool)
    (c : Nat) :
    (markNode colors n (b :: rest) c).color = n.color := by
  rw [markNode_cons]
  cases b <;> simp

theorem child_new (colors : Nat) (b : Bool) : (Node.new colors).child b = none := by
  cases b <;> rfl

theorem follow_new_ne_nil (colors : Nat) (q : List Bool) (h : q ≠ []) :
    follow (Node.new colors) q = none := by
  cases q with
  | nil => exact absurd rfl h
  | cons b bs => simp [child_new]

/-- The color at the path just marked is the marked color. -/
theorem colorAt_markNode_self (colors : Nat) :
    ∀ (p : List Bool) (n : Node) (c : Nat), colorAt (markNode colors n p c) p = some c := by
  intro p
  induction p with
  | nil =>
    intro n c
    rw [markNode_nil, colorAt_nil]
    simp
  | cons b bs ih =>
    intro n c
    simp only [colorAt, follow_cons, child_markNode_cons, if_pos rfl, Option.some_bind]
    exact ih ((n.child b).getD (Node.new colors)) c

/-- `existsAt` only looks at the tree shape, which changing color or DP
vectors preserves. -/
theorem existsAt_mk_of_child (n m : Node) (h0 : m.child0 = n.child0)
    (h1 : m.child1 = n.child1) (q : List Bool) : existsAt m q ↔ existsAt n q := by
  cases q with
  | nil => simp
  | cons b bs =>
    unfold existsAt
    simp only [follow_cons]
    have hc : m.child b = n.child b := by
      cases b <;> simp [Node.child, h0, h1]
    rw [hc]

/-- Marking creates exactly the nodes on the marked path. -/
theorem existsAt_markNode (colors : Nat) :
    ∀ (p : List Bool) (n : Node) (c : Nat) (q : List Bool),
      existsAt (markNode colors n p c) q ↔ (existsAt n q ∨ q <+: p) := by
  intro p
  induction p with
  | nil =>
    intro n c q
    rw [markNode_nil]
    rw [existsAt_mk_of_child n _ (by simp) (by simp)]
    cases q with
    | nil => simp
    | cons b bs => simp
  | cons b bs ih =>
    intro n c q
    cases q with
    | nil => simp
    | cons b' qs =>
      unfold existsAt
      simp only [follow_cons, child_markNode_cons]
      by_cases hb : b' = b
      · subst hb
        simp only [if_pos rfl, if_true, Option.some_bind]
        have hih := ih ((n.child b').getD (Node.new colors)) c qs
        unfold existsAt at hih
        rw [hih]
        cases hch : n.child b' with
        | some t =>
          simp only [hch, Option.getD_some, Option.some_bind]
          simp [List.cons_prefix_cons]
        | none =>
          simp only [hch, Option.getD_none, Option.none_bind]
          constructor
          · intro h
            rcases h with h | h
            · cases qs with
              | nil => simp [List.cons_prefix_cons]
              | cons x xs =>
                rw [follow_new_ne_nil colors _ (by simp)] at h
                simp at h
            · simp [List.cons_prefix_cons, h]
          · intro h
            rcases h with h | h
            · simp at h
            · rw [List.cons_prefix_cons] at h
              exact Or.inr h.2
      · simp only [if_neg hb]
        have hpre : ¬(b' :: qs <+: b :: bs) := by
          rw [List.cons_prefix_cons]
          intro h
          exact hb h.1
        simp [hpre]

/-- How marking a path `p` affects the color at an arbitrary path `q`:
the endpoint gets the new color, strict ancestors exist afterwards and keep
their color (`0` when freshly created), everything else is untouched. -/
theorem colorAt_markNode (colors : Nat) :
    ∀ (p : List Bool) (n : Node) (c : Nat) (q : List Bool),
      colorAt (markNode colors n p c) q =
        if q = p then some c
        else if q <+: p then some ((colorAt n q).getD 0)
        else colorAt n q := by
  intro p
  induction p with
  | nil =>
    intro n c q
    cases q with
    | nil =>
      rw [markNode_nil]
      simp
    | cons b bs =>
      have hq : ¬((b :: bs : List Bool) <+: []) := by simp
      simp only [if_neg (by simp : (b :: bs : List Bool) ≠ []), if_neg hq]
      rw [markNode_nil]
      unfold colorAt
      simp only [follow_cons]
      have hc : (Node.mk n.child0 n.child1 c n.numRoutes n.decision).child b
          = n.child b := by
        cases b <;> simp [Node.child]
      rw [hc]
  | cons b bs ih =>
    intro n c q
    cases q with
    | nil =>
      have hne : ([] : List Bool) ≠ b :: bs := by simp
      rw [if_neg hne, if_pos List.nil_prefix, colorAt_nil, colorAt_nil,
        color_markNode_cons]
      simp
    | cons b' qs =>
      unfold colorAt
      simp only [follow_cons, child_markNode_cons]
      by_cases hb : b' = b
      · subst hb
        simp only [if_pos rfl, if_true, Option.some_bind]
        have hih := ih ((n.child b').getD (Node.new colors)) c qs
        unfold colorAt at hih
        have hqp : (b' :: qs = b' :: bs) ↔ (qs = bs) := by simp
        have hpre : (b' :: qs <+: b' :: bs) ↔ (qs <+: bs) := by
          simp [List.cons_prefix_cons]
        rw [hih]
        cases hch : n.child b' with
        | some t =>
          simp only [hch, Option.getD_some, Option.some_bind]
          by_cases h1 : qs = bs
          · rw [if_pos h1, if_pos (hqp.mpr h1)]
          · rw [if_neg h1, if_neg (fun hc => h1 (hqp.mp hc))]
            by_cases h2 : qs <+: bs
            · rw [if_pos h2, if_pos (hpre.mpr h2)]
            · rw [if_neg h2, if_neg (fun hc => h2 (hpre.mp hc))]
        | none =>
          simp only [hch, Option.getD_none, Option.none_bind]
          by_cases h1 : qs = bs
          · rw [if_pos h1, if_pos (hqp.mpr h1)]
          · rw [if_neg h1, if_neg (fun hc => h1 (hqp.mp hc))]
            by_cases h2 : qs <+: bs
            · rw [if_pos h2, if_pos (hpre.mpr h2)]
              cases qs with
              | nil => simp [Node.new]
              | cons x xs => rw [follow_new_ne_nil colors _ (by simp)]
            · rw [if_neg h2, if_neg (fun hc => h2 (hpre.mp hc))]
              have hq : qs ≠ [] := by
                intro hq
                exact h2 (hq ▸ List.nil_prefix)
              rw [follow_new_ne_nil colors _ hq]
      · simp only [if_neg hb]
        have hne : b' :: qs ≠ b :: bs := by simp [hb]
        have hpre : ¬(b' :: qs <+: b :: bs) := by
          rw [List.cons_prefix_cons]
          intro h
          exact hb h.1
        rw [if_neg hne, if_neg hpre]

/-! ## Building a trie from a list of marks -/

@[simp] theorem markAll_nil (colors : Nat) (n : Node) : markAll colors [] n = n := rfl

@[simp] theorem markAll_cons (colors : Nat) (m : List Bool × Nat)
    (ms : List (List Bool × Nat)) (n : Node) :
    markAll colors (m :: ms) n = markAll colors ms (markNode colors n m.1 m.2) := rfl

theorem existsAt_new (colors : Nat) (q : List Bool) :
    existsAt (Node.new colors) q ↔ q = [] := by
  cases q with
  | nil => simp
  | cons b bs =>
    unfold existsAt
    rw [follow_new_ne_nil colors _ (by simp)]
    simp

theorem existsAt_of_colorAt (n : Node) (q : List Bool) (c : Nat)
    (h : colorAt n q = some c) : existsAt n q := by
  unfold colorAt at h
  unfold existsAt
  cases hf : follow n q with
  | none => rw [hf] at h; simp at h
  | some m => rfl

theorem colorAt_isSome_of_existsAt (n : Node) (q : List Bool) (h : existsAt n q) :
    ∃ c, colorAt n q = some c := by
  unfold existsAt at h
  unfold colorAt
  cases hf : follow n q with
  | none => rw [hf] at h; simp at h
  | some m => exact ⟨m.color, rfl⟩

theorem existsAt_markAll (colors : Nat) :
    ∀ (ms : List (List Bool × Nat)) (n : Node) (q : List Bool),
      existsAt (markAll colors ms n) q ↔ (existsAt n q ∨ ∃ m ∈ ms, q <+: m.1) := by
  intro ms
  induction ms with
  | nil => simp
  | cons m0 ms ih =>
    intro n q
    rw [markAll_cons, ih, existsAt_markNode]
    simp only [List.mem_cons]
    constructor
    · rintro ((h | h) | ⟨m, hm, hp⟩)
      · exact Or.inl h
      · exact Or.inr ⟨m0, Or.inl rfl, h⟩
      · exact Or.inr ⟨m, Or.inr hm, hp⟩
    · rintro (h | ⟨m, (hm | hm), hp⟩)
      · exact Or.inl (Or.inl h)
      · exact Or.inl (Or.inr (hm ▸ hp))
      · exact Or.inr ⟨m, hm, hp⟩

theorem existsAt_build (colors : Nat) (ms : List (List Bool × Nat)) (q : List Bool) :
    existsAt (build colors ms) q ↔ (q = [] ∨ ∃ m ∈ ms, q <+: m.1) := by
  unfold build
  rw [existsAt_markAll, existsAt_new]

/-- Every nonzero color in the built trie comes from some mark at exactly
that path (fresh nodes carry color `0`). -/
theorem color_source (colors : Nat) :
    ∀ (ms : List (List Bool × Nat)) (n : Node) (q : List Bool) (c : Nat),
      colorAt (markAll colors ms n) q = some c →
      c = 0 ∨ (∃ m ∈ ms, m.1 = q ∧ m.2 = c) ∨ colorAt n q = some c := by
  intro ms
  induction ms with
  | nil =>
    intro n q c h
    exact Or.inr (Or.inr h)
  | cons m0 ms ih =>
    intro n q c h
    rw [markAll_cons] at h
    rcases ih _ q c h with h0 | ⟨m, hm, hq, hc⟩ | hcol
    · exact Or.inl h0
    · exact Or.inr (Or.inl ⟨m, List.mem_cons_of_mem _ hm, hq, hc⟩)
    · rw [colorAt_markNode] at hcol
      by_cases h1 : q = m0.1
      · rw [if_pos h1] at hcol
        exact Or.inr (Or.inl ⟨m0, List.mem_cons_self _ _, h1.symm,
          Option.some.inj hcol⟩)
      · rw [if_neg h1] at hcol
        by_cases h2 : q <+: m0.1
        · rw [if_pos h2] at hcol
          cases hold : colorAt n q with
          | none =>
            rw [hold] at hcol
            simp at hcol
            exact Or.inl hcol.symm
          | some v =>
            rw [hold] at hcol
            simp at hcol
            exact Or.inr (Or.inr (congrArg some hcol))
        · rw [if_neg h2] at hcol
          exact Or.inr (Or.inr hcol)

/-- Marks at other paths never change an existing node's color. -/
theorem colorAt_markAll_no_mark (colors : Nat) :
    ∀ (ms : List (List Bool × Nat)) (n : Node) (q : List Bool),
      (∀ m ∈ ms, m.1 ≠ q) → existsAt n q →
      colorAt (markAll colors ms n) q = colorAt n q := by
  intro ms
  induction ms with
  | nil =>
    intro n q _ _
    rfl
  | cons m0 ms ih =>
    intro n q hnm hex
    rw [markAll_cons]
    have hne : q ≠ m0.1 := fun h => hnm m0 (List.mem_cons_self _ _) h.symm
    have hstep : colorAt (markNode colors n m0.1 m0.2) q = colorAt n q := by
      rw [colorAt_markNode, if_neg hne]
      by_cases h2 : q <+: m0.1
      · rw [if_pos h2]
        obtain ⟨v, hv⟩ := colorAt_isSome_of_existsAt n q hex
        rw [hv]
        rfl
      · rw [if_neg h2]
    rw [ih _ q (fun m hm => hnm m (List.mem_cons_of_mem _ hm)), hstep]
    rw [existsAt_markNode]
    exact Or.inl hex

/-- A path that is marked ends up carrying the color of one of the marks
at exactly that path. -/
theorem colorAt_markAll_marked (colors : Nat) :
    ∀ (ms : List (List Bool × Nat)) (n : Node) (q : List Bool),
      (∃ m ∈ ms, m.1 = q) →
      ∃ c, colorAt (markAll colors ms n) q = some c ∧ ∃ m ∈ ms, m.1 = q ∧ m.2 = c := by
  intro ms
  induction ms with
  | nil =>
    intro n q h
    simp at h
  | cons m0 ms ih =>
    intro n q hq
    rw [markAll_cons]
    by_cases hms : ∃ m ∈ ms, m.1 = q
    · obtain ⟨c, hc, m, hm, h1, h2⟩ := ih (markNode colors n m0.1 m0.2) q hms
      exact ⟨c, hc, m, List.mem_cons_of_mem _ hm, h1, h2⟩
    · have h0 : m0.1 = q := by
        rcases hq with ⟨m, hm, h1⟩
        rcases List.mem_cons.mp hm with rfl | hm'
        · exact h1
        · exact absurd ⟨m, hm', h1⟩ hms
      have hnm : ∀ m ∈ ms, m.1 ≠ q := by
        intro m hm h
        exact hms ⟨m, hm, h⟩
      have hex : existsAt (markNode colors n m0.1 m0.2) q := by
        rw [existsAt_markNode]
        exact Or.inr (h0 ▸ List.prefix_refl _)
      rw [colorAt_markAll_no_mark colors ms _ q hnm hex]
      refine ⟨m0.2, ?_, m0, List.mem_cons_self _ _, h0, rfl⟩
      rw [← h0, colorAt_markNode_self]

/-! ## Well-formed tries and `dp` success -/

/-- `dp` succeeds on every well-formed trie: neither assertion can fire. -/
theorem dp_ok_of_wf (n : Node) (h : WF n) : ∃ n', n.dp = .ok n' := by
  induction h with
  | leaf color nr dec hc =>
    exact ⟨.mk none none color (dpLeafNum color nr) (dpLeafDec color nr dec),
      by simp [Node.dp, hc]⟩
  | int0 t0 nr dec h0 ih =>
    obtain ⟨t0', ht0⟩ := ih
    exact ⟨dpInternal (some t0') none 0 nr dec, by simp [Node.dp, ht0]⟩
  | int1 t1 nr dec h1 ih =>
    obtain ⟨t1', ht1⟩ := ih
    exact ⟨dpInternal none (some t1') 0 nr dec, by simp [Node.dp, ht1]⟩
  | int2 t0 t1 nr dec h0 h1 ih0 ih1 =>
    obtain ⟨t0', ht0⟩ := ih0
    obtain ⟨t1', ht1⟩ := ih1
    exact ⟨dpInternal (some t0') (some t1') 0 nr dec, by simp [Node.dp, ht0, ht1]⟩

/-- Strong induction over the nested tree structure. -/
theorem node_strong_ind (P : Node → Prop)
    (h : ∀ (c0 c1 : Option Node) (col : Nat) (nr : List Nat) (dec : List (Option Nat)),
      (∀ t, c0 = some t → P t) → (∀ t, c1 = some t → P t) →
      P (Node.mk c0 c1 col nr dec)) : ∀ n, P n
  | .mk none none col nr dec =>
    h none none col nr dec (fun t ht => by cases ht) (fun t ht => by cases ht)
  | .mk (some t0) none col nr dec =>
    h (some t0) none col nr dec
      (fun t ht => Option.some.inj ht ▸ node_strong_ind P h t0)
      (fun t ht => by cases ht)
  | .mk none (some t1) col nr dec =>
    h none (some t1) col nr dec
      (fun t ht => by cases ht)
      (fun t ht => Option.some.inj ht ▸ node_strong_ind P h t1)
  | .mk (some t0) (some t1) col nr dec =>
    h (some t0) (some t1) col nr dec
      (fun t ht => Option.some.inj ht ▸ node_strong_ind P h t0)
      (fun t ht => Option.some.inj ht ▸ node_strong_ind P h t1)

/-- A trie is well-formed as soon as every addressable node satisfies the
leaf/internal color conditions. -/
theorem wf_of_pathwise : ∀ n : Node,
    (∀ (q : List Bool) (m : Node), follow n q = some m →
      ((m.child0 = none ∧ m.child1 = none → m.color ≠ 0) ∧
       ((m.child0 ≠ none ∨ m.child1 ≠ none) → m.color = 0))) → WF n := by
  refine node_strong_ind _ ?_
  intro c0 c1 col nr dec ih0 ih1 hpath
  have hroot := hpath [] _ (follow_nil _)
  cases c0 with
  | none =>
    cases c1 with
    | none => exact WF.leaf col nr dec (hroot.1 ⟨rfl, rfl⟩)
    | some t1 =>
      have hcol : col = 0 := hroot.2 (Or.inr (by simp))
      subst hcol
      refine WF.int1 t1 nr dec (ih1 t1 rfl ?_)
      intro q m hf
      refine hpath (true :: q) m ?_
      rw [follow_cons]
      exact hf
  | some t0 =>
    cases c1 with
    | none =>
      have hcol : col = 0 := hroot.2 (Or.inl (by simp))
      subst hcol
      refine WF.int0 t0 nr dec (ih0 t0 rfl ?_)
      intro q m hf
      refine hpath (false :: q) m ?_
      rw [follow_cons]
      exact hf
    | some t1 =>
      have hcol : col = 0 := hroot.2 (Or.inl (by simp))
      subst hcol
      refine WF.int2 t0 t1 nr dec (ih0 t0 rfl ?_) (ih1 t1 rfl ?_)
      · intro q m hf
        refine hpath (false :: q) m ?_
        rw [follow_cons]
        exact hf
      · intro q m hf
        refine hpath (true :: q) m ?_
        rw [follow_cons]
        exact hf

theorem follow_append (n : Node) (p q : List Bool) :
    follow n (p ++ q) = (follow n p).bind fun m => follow m q := by
  induction p generalizing n with
  | nil => simp
  | cons b bs ih =>
    simp only [List.cons_append, follow_cons]
    cases hc : n.child b with
    | none => simp
    | some t => simp [ih]

theorem follow_single (n : Node) (b : Bool) : follow n [b] = n.child b := by
  rw [follow_cons]
  cases n.child b <;> rfl

/-- The heart of the assertion-safety argument: at least one mark with
nonzero colors and pairwise non-nested paths yields a well-formed trie. -/
theorem build_wf (colors : Nat) (ms : List (List Bool × Nat)) (hne : ms ≠ [])
    (hc : ∀ m ∈ ms, m.2 ≠ 0)
    (hdisj : ∀ a ∈ ms, ∀ b ∈ ms, a.1 <+: b.1 → a.1 = b.1) :
    WF (build colors ms) := by
  apply wf_of_pathwise
  intro q m hf
  have hex : existsAt (build colors ms) q := by
    unfold existsAt
    rw [hf]
    rfl
  have hcolq : colorAt (build colors ms) q = some m.color := by
    unfold colorAt
    rw [hf]
    rfl
  have hchild : ∀ b : Bool,
      existsAt (build colors ms) (q ++ [b]) ↔ (m.child b).isSome = true := by
    intro b
    unfold existsAt
    rw [follow_append, hf, Option.some_bind, follow_single]
  constructor
  · rintro ⟨h0, h1⟩
    have hnochild : ∀ b : Bool, ¬existsAt (build colors ms) (q ++ [b]) := by
      intro b hb
      rw [hchild b] at hb
      cases b
      · rw [show m.child false = m.child0 from rfl, h0] at hb
        simp at hb
      · rw [show m.child true = m.child1 from rfl, h1] at hb
        simp at hb
    have hmarked : ∃ mk ∈ ms, mk.1 = q := by
      rcases (existsAt_build colors ms q).mp hex with hq | ⟨mk, hmk, hpre⟩
      · subst hq
        cases ms with
        | nil => exact absurd rfl hne
        | cons m0 ms' =>
          cases hm0 : m0.1 with
          | nil => exact ⟨m0, List.mem_cons_self _ _, hm0⟩
          | cons b rest =>
            exfalso
            apply hnochild b
            rw [existsAt_build]
            refine Or.inr ⟨m0, List.mem_cons_self _ _, ?_⟩
            rw [hm0]
            simp
      · by_cases heq : q = mk.1
        · exact ⟨mk, hmk, heq.symm⟩
        · exfalso
          obtain ⟨t, ht⟩ := hpre
          cases t with
          | nil => exact heq (by rw [← ht, List.append_nil])
          | cons b rest =>
            apply hnochild b
            rw [existsAt_build]
            refine Or.inr ⟨mk, hmk, ?_⟩
            rw [← ht]
            exact ⟨rest, by simp⟩
    obtain ⟨c, hcc, mk, hmk, hq1, hq2⟩ :=
      colorAt_markAll_marked colors ms (Node.new colors) q hmarked
    have hmc : m.color = c := Option.some.inj (hcolq.symm.trans hcc)
    rw [hmc, ← hq2]
    exact hc mk hmk
  · intro hch
    have hb : ∃ b : Bool, (m.child b).isSome = true := by
      rcases hch with h | h
      · refine ⟨false, ?_⟩
        rw [show m.child false = m.child0 from rfl]
        cases hc0 : m.child0 with
        | none => exact absurd hc0 h
        | some t => rfl
      · refine ⟨true, ?_⟩
        rw [show m.child true = m.child1 from rfl]
        cases hc1 : m.child1 with
        | none => exact absurd hc1 h
        | some t => rfl
    obtain ⟨b, hb⟩ := hb
    have hexb : existsAt (build colors ms) (q ++ [b]) := (hchild b).mpr hb
    rcases (existsAt_build colors ms _).mp hexb with hq | ⟨mk, hmk, hpre⟩
    · simp at hq
    · have hqpre : q <+: mk.1 := (List.prefix_append q [b]).trans hpre
      have hqne : q ≠ mk.1 := by
        intro h
        rw [← h] at hpre
        have hlen := hpre.length_le
        simp at hlen
      rcases color_source colors ms (Node.new colors) q m.color hcolq with
        h0 | ⟨mk', hmk', hq', hc'⟩ | hnew
      · exact h0
      · exfalso
        exact hqne ((hq' ▸ hdisj mk' hmk' mk hmk (hq'.symm ▸ hqpre)).symm ▸ rfl)
      · cases q with
        | nil =>
          have : (0 : Nat) = m.color := by
            have h0 : colorAt (Node.new colors) [] = some 0 := by
              simp [Node.new]
            exact Option.some.inj (h0.symm.trans hnew)
          exact this.symm
        | cons x xs =>
          exfalso
          unfold colorAt at hnew
          rw [follow_new_ne_nil colors _ (by simp)] at hnew
          simp at hnew

/-! ## The internal `dp` case: argmin loop and capping loop -/

theorem argminUpTo_one (l : List Nat) : argminUpTo l 1 = 0 := rfl

theorem argminUpTo_succ (l : List Nat) (m : Nat) (h : 1 ≤ m) :
    argminUpTo l (m + 1) =
      if l.getD m 0 < l.getD (argminUpTo l m) 0 then m else argminUpTo l m := by
  unfold argminUpTo
  rw [List.range_succ, List.drop_append_of_le_length (by simp [h]), List.foldl_append]
  rfl

/-- The `min_index` loop returns the least index attaining the minimum of
the scanned entries. -/
theorem argminUpTo_spec (l : List Nat) :
    ∀ m, 1 ≤ m →
      argminUpTo l m < m ∧
      (∀ j, j < m → l.getD (argminUpTo l m) 0 ≤ l.getD j 0) ∧
      (∀ j, j < argminUpTo l m → l.getD (argminUpTo l m) 0 < l.getD j 0) := by
  intro m
  induction m with
  | zero => omega
  | succ m ih =>
    intro _
    by_cases hm : 1 ≤ m
    · obtain ⟨h1, h2, h3⟩ := ih hm
      rw [argminUpTo_succ l m hm]
      by_cases hlt : l.getD m 0 < l.getD (argminUpTo l m) 0
      · rw [if_pos hlt]
        refine ⟨by omega, ?_, ?_⟩
        · intro j hj
          by_cases hjm : j < m
          · exact le_of_lt (lt_of_lt_of_le hlt (h2 j hjm))
          · have : j = m := by omega
            subst this
            exact le_refl _
        · intro j hj
          exact lt_of_lt_of_le hlt (h2 j hj)
      · rw [if_neg hlt]
        refine ⟨by omega, ?_, h3⟩
        intro j hj
        by_cases hjm : j < m
        · exact h2 j hjm
        · have : j = m := by omega
          subst this
          exact Nat.le_of_not_lt hlt
    · have hzero : m = 0 := by omega
      subst hzero
      rw [show (0 + 1 : Nat) = 1 from rfl, argminUpTo_one]
      refine ⟨by omega, ?_, ?_⟩
      · intro j hj
        have : j = 0 := by omega
        subst this
        exact le_refl _
      · intro j hj
        omega

theorem getD_map_range {α : Type} (f : Nat → α) (len i : Nat) (d : α) (h : i < len) :
    (((List.range len).map f).getD i d) = f i := by
  rw [List.getD_eq_getElem _ _ (by simp [h])]
  simp

/-- Characterization of the internal `dp` post-processing: the chosen
`min_index` is the least argmin of `base`, entries within `min + 1` are
kept with no decision, larger ones are capped and decided. -/
theorem dpInternal_spec (c0 c1 : Option Node) (color : Nat) (nr : List Nat)
    (dec : List (Option Nat)) (h : 0 < nr.length) :
    ∃ cstar, cstar < nr.length ∧
      (∀ j, j < nr.length → baseSum c0 c1 cstar ≤ baseSum c0 c1 j) ∧
      (∀ j, j < cstar → baseSum c0 c1 cstar < baseSum c0 c1 j) ∧
      (∀ c, c < nr.length →
        (baseSum c0 c1 c ≤ baseSum c0 c1 cstar + 1 →
          (dpInternal c0 c1 color nr dec).numRoutes.getD c 0 = baseSum c0 c1 c ∧
          (dpInternal c0 c1 color nr dec).decision.getD c none = none) ∧
        (baseSum c0 c1 cstar + 1 < baseSum c0 c1 c →
          (dpInternal c0 c1 color nr dec).numRoutes.getD c 0 = baseSum c0 c1 cstar + 1 ∧
          (dpInternal c0 c1 color nr dec).decision.getD c none = some cstar)) := by
  set len := nr.length with hlen
  set base := (List.range len).map fun i => childRoutes c0 i + childRoutes c1 i with hbase
  have hbaselen : base.length = len := by simp [hbase]
  have hbaseD : ∀ i, i < len → base.getD i 0 = baseSum c0 c1 i := by
    intro i hi
    rw [hbase]
    exact getD_map_range _ len i 0 hi
  have hargmin : argminIdx base = argminUpTo base len := by
    unfold argminIdx argminUpTo
    rw [hbaselen]
  obtain ⟨h1, h2, h3⟩ := argminUpTo_spec base len h
  set mi := argminUpTo base len with hmi
  have hmval : base.getD mi 0 = baseSum c0 c1 mi := hbaseD mi h1
  refine ⟨mi, h1, ?_, ?_, ?_⟩
  · intro j hj
    have := h2 j hj
    rw [hmval, hbaseD j hj] at this
    exact this
  · intro j hj
    have := h3 j hj
    rw [hmval, hbaseD j (lt_trans hj h1)] at this
    exact this
  · intro c hc
    have hnum : (dpInternal c0 c1 color nr dec).numRoutes.getD c 0 =
        if baseSum c0 c1 mi + 1 < baseSum c0 c1 c then baseSum c0 c1 mi + 1
        else baseSum c0 c1 c := by
      show ((base.map fun v =>
        if base.getD (argminIdx base) 0 + 1 < v then base.getD (argminIdx base) 0 + 1
        else v).getD c 0) = _
      rw [hargmin, hmval]
      have : base.map (fun v => if baseSum c0 c1 mi + 1 < v then baseSum c0 c1 mi + 1 else v)
          = (List.range len).map fun i =>
            (fun v => if baseSum c0 c1 mi + 1 < v then baseSum c0 c1 mi + 1 else v)
            (childRoutes c0 i + childRoutes c1 i) := by
        rw [hbase, List.map_map]
        rfl
      rw [this, getD_map_range _ len c _ hc]
      rfl
    have hdec : (dpInternal c0 c1 color nr dec).decision.getD c none =
        if baseSum c0 c1 mi + 1 < baseSum c0 c1 c then some mi else none := by
      show (((base.map fun v =>
        if base.getD (argminIdx base) 0 + 1 < v then some (argminIdx base) else none)
          ++ dec.drop nr.length).getD c none) = _
      rw [List.getD_append _ _ _ _ (by simp [hbaselen]; exact hc)]
      rw [hargmin, hmval]
      have : base.map (fun v => if baseSum c0 c1 mi + 1 < v then some mi else none)
          = (List.range len).map fun i =>
            (fun v => if baseSum c0 c1 mi + 1 < v then some mi else none)
            (childRoutes c0 i + childRoutes c1 i) := by
        rw [hbase, List.map_map]
        rfl
      rw [this, getD_map_range _ len c _ hc]
      rfl
    constructor
    · intro hle
      have hnotlt : ¬(baseSum c0 c1 mi + 1 < baseSum c0 c1 c) := by omega
      rw [hnum, if_neg hnotlt, hdec, if_neg hnotlt]
      exact ⟨rfl, rfl⟩
    · intro hlt
      rw [hnum, if_pos hlt, hdec, if_pos hlt]
      exact ⟨rfl, rfl⟩

theorem child0_dpInternal (c0 c1 : Option Node) (color : Nat) (nr : List Nat)
    (dec : List (Option Nat)) : (dpInternal c0 c1 color nr dec).child0 = c0 := rfl

theorem child1_dpInternal (c0 c1 : Option Node) (color : Nat) (nr : List Nat)
    (dec : List (Option Nat)) : (dpInternal c0 c1 color nr dec).child1 = c1 := rfl

/-- Claim C4: after `dp()` on a node with at least one child and
`color == 0`, with `base[c]` the sum of the present (already processed)
children's `num_routes[c]`, the node picks `c*` as the lowest-index argmin
of `base`; entries with `base[c] ≤ base[c*] + 1` keep `num_routes[c] =
base[c]` and no decision, all others get `num_routes[c] = base[c*] + 1`
and `decision[c] = Some(c*)`. -/
theorem c4_internal_dp_contract (n n' : Node)
    (hch : n.child0 ≠ none ∨ n.child1 ≠ none)
    (hlen : 0 < n.numRoutes.length)
    (hdp : n.dp = .ok n') :
    ∃ cstar, cstar < n.numRoutes.length ∧
      (∀ j, j < n.numRoutes.length →
        baseSum n'.child0 n'.child1 cstar ≤ baseSum n'.child0 n'.child1 j) ∧
      (∀ j, j < cstar →
        baseSum n'.child0 n'.child1 cstar < baseSum n'.child0 n'.child1 j) ∧
      (∀ c, c < n.numRoutes.length →
        (baseSum n'.child0 n'.child1 c ≤ baseSum n'.child0 n'.child1 cstar + 1 →
          n'.numRoutes.getD c 0 = baseSum n'.child0 n'.child1 c ∧
          n'.decision.getD c none = none) ∧
        (baseSum n'.child0 n'.child1 cstar + 1 < baseSum n'.child0 n'.child1 c →
          n'.numRoutes.getD c 0 = baseSum n'.child0 n'.child1 cstar + 1 ∧
          n'.decision.getD c none = some cstar)) := by
  cases n with
  | mk c0 c1 color nr dec =>
    simp only [numRoutes_mk] at hlen ⊢
    cases c0 with
    | none =>
      cases c1 with
      | none => simp at hch
      | some t1 =>
        simp only [Node.dp] at hdp
        by_cases hcol : color = 0
        · rw [if_pos hcol] at hdp
          cases ht1 : t1.dp with
          | error e =>
            rw [ht1] at hdp
            simp at hdp
          | ok t1' =>
            rw [ht1] at hdp
            simp only [Except.ok.injEq] at hdp
            subst hdp
            rw [child0_dpInternal, child1_dpInternal]
            exact dpInternal_spec none (some t1') color nr dec hlen
        · rw [if_neg hcol] at hdp
          simp at hdp
    | some t0 =>
      cases c1 with
      | none =>
        simp only [Node.dp] at hdp
        by_cases hcol : color = 0
        · rw [if_pos hcol] at hdp
          cases ht0 : t0.dp with
          | error e =>
            rw [ht0] at hdp
            simp at hdp
          | ok t0' =>
            rw [ht0] at hdp
            simp only [Except.ok.injEq] at hdp
            subst hdp
            rw [child0_dpInternal, child1_dpInternal]
            exact dpInternal_spec (some t0') none color nr dec hlen
        · rw [if_neg hcol] at hdp
          simp at hdp
      | some t1 =>
        simp only [Node.dp] at hdp
        by_cases hcol : color = 0
        · rw [if_pos hcol] at hdp
          cases ht0 : t0.dp with
          | error e =>
            rw [ht0] at hdp
            simp at hdp
          | ok t0' =>
            rw [ht0] at hdp
            cases ht1 : t1.dp with
            | error e =>
              rw [ht1] at hdp
              simp at hdp
            | ok t1' =>
              rw [ht1] at hdp
              simp only [Except.ok.injEq] at hdp
              subst hdp
              rw [child0_dpInternal, child1_dpInternal]
              exact dpInternal_spec (some t0') (some t1') color nr dec hlen
        · rw [if_neg hcol] at hdp
          simp at hdp

/-- Claim C4 witness: the contract instantiated at a concrete internal
node with two marked leaf children of colors 1 and 2 (`K = 2`). -/
theorem c4_internal_dp_contract_witness :
    (exInternal.child0 ≠ none ∨ exInternal.child1 ≠ none) ∧
    0 < exInternal.numRoutes.length ∧
    exInternal.dp = .ok exResult ∧
    (∃ cstar, cstar < exInternal.numRoutes.length ∧
      (∀ j, j < exInternal.numRoutes.length →
        baseSum exResult.child0 exResult.child1 cstar ≤
          baseSum exResult.child0 exResult.child1 j) ∧
      (∀ j, j < cstar →
        baseSum exResult.child0 exResult.child1 cstar <
          baseSum exResult.child0 exResult.child1 j) ∧
      (∀ c, c < exInternal.numRoutes.length →
        (baseSum exResult.child0 exResult.child1 c ≤
            baseSum exResult.child0 exResult.child1 cstar + 1 →
          exResult.numRoutes.getD c 0 = baseSum exResult.child0 exResult.child1 c ∧
          exResult.decision.getD c none = none) ∧
        (baseSum exResult.child0 exResult.child1 cstar + 1 <
            baseSum exResult.child0 exResult.child1 c →
          exResult.numRoutes.getD c 0 =
            baseSum exResult.child0 exResult.child1 cstar + 1 ∧
          exResult.decision.getD c none = some cstar))) :=
  ⟨Or.inl (by simp [exInternal]), by simp [exInternal], rfl,
    c4_internal_dp_contract exInternal exResult (Or.inl (by simp [exInternal]))
      (by simp [exInternal]) rfl⟩

/-- Claim C1 (refuted by the code): marking 128.0.0.0/1 with color 1
(`K = 1`) and generating with `no_default_gateway = false` emits the single
pair `(path "1", color 0)` — the reserved no-gateway color, not color 1 —
and the emitter's `gateways[color - 1]` lookup then panics, so no address
of 128.0.0.0/1 is ever classified as gateway 1. -/
theorem c1_coverage_fails_on_code :
    generatePairs ((Tree.new 1).mark [128, 0, 0, 0] 1 1) false = .ok [([true], 0)] ∧
    generateV4 ((Tree.new 1).mark [128, 0, 0, 0] 1 1) ["gw1"] false = none :=
  ⟨rfl, rfl⟩

/-- Claim C2 (refuted by the code): on the single mark 0.0.0.0/1 with
color 1 (`K = 1`), `generate` panics instead of returning any route list
(so no minimum-size covering list is returned), while the emitter itself
can emit the one-route covering list `[(0.0.0.0/1, gateway 1)]`. -/
theorem c2_minimality_fails_on_code :
    generateV4 ((Tree.new 1).mark [0, 0, 0, 0] 1 1) ["a"] false = none ∧
    emitAllV4 ["a"] [([false], 1)] =
      some [⟨[0, 0, 0, 0], netmaskV4 1, 1, "a"⟩] :=
  ⟨rfl, rfl⟩

/-- Claim C3 (refuted by the code): after `dp()` on a childless node with
`color = 1` and `K = 2`, the claim demands `decision[2] = Some(1)` (switch
to the leaf's own color), but the code stores `Some(i)` — here `Some(2)`,
the inherited color itself (and `Some(0)` at index 0). -/
theorem c3_leaf_dp_stores_inherited_color :
    (Node.mk none none 1 (List.replicate 3 usizeMax) (List.replicate 3 none)).dp
      = .ok (.mk none none 1 [1, 0, 1] [some 0, none, some 2]) :=
  rfl

/-- Claim C5 (refuted by the code): on a freshly created trie with no
marks, `dp` hits `assert_ne!(color, 0)` at the childless root, so
`generate` aborts rather than returning `[]`. -/
theorem c5_empty_trie_fails_on_code :
    (Tree.new 1).root.dp = .error .leafColorZero ∧
    generateV4 (Tree.new 1) ["gw"] false = none :=
  ⟨rfl, rfl⟩

/-- Claim C7 (refuted by the code): with two complementary halves marked
with colors 1 and 2 (`K = 2`), `generate` emits the pairs `(path "0", 0)`
and `(path "1", 0)` — routes carrying reserved gateway index 0 — and the
`gateways[color - 1]` lookup is out of bounds. -/
theorem c7_reserved_color_fails_on_code :
    generatePairs (((Tree.new 2).mark [0, 0, 0, 0] 1 1).mark [128, 0, 0, 0] 1 2)
      false = .ok [([false], 0), ([true], 0)] ∧
    generateV4 (((Tree.new 2).mark [0, 0, 0, 0] 1 1).mark [128, 0, 0, 0] 1 2)
      ["a", "b"] false = none :=
  ⟨rfl, rfl⟩

/-- Claim C10: if at least one mark was made, every mark carries a nonzero
color, and no marked bit path is a proper prefix of another, then every
childless node of the resulting trie is colored and every node with a
child is uncolored (`WF`), so `dp()` completes without either assertion
firing; conversely, marking path `1` and then its proper extension `10`
makes `dp()` fail its `color == 0` assertion. -/
theorem c10_dp_assertion_safety :
    (∀ (colors : Nat) (ms : List (List Bool × Nat)), ms ≠ [] →
      (∀ m ∈ ms, m.2 ≠ 0) →
      (∀ a ∈ ms, ∀ b ∈ ms, a.1 <+: b.1 → a.1 = b.1) →
      WF (build colors ms) ∧ ∃ n', (build colors ms).dp = .ok n') ∧
    (build 1 [([true], 1), ([true, false], 1)]).dp
      = .error .internalColorNonzero := by
  constructor
  · intro colors ms h1 h2 h3
    have hwf := build_wf colors ms h1 h2 h3
    exact ⟨hwf, dp_ok_of_wf _ hwf⟩
  · rfl

/-- Claim C10 witness: two sibling one-bit marks with colors 1 and 2 on a
`K = 2` trie satisfy the hypotheses, and `dp` succeeds. -/
theorem c10_dp_assertion_safety_witness :
    ([([false], 1), ([true], 2)] : List (List Bool × Nat)) ≠ [] ∧
    (∀ m ∈ ([([false], 1), ([true], 2)] : List (List Bool × Nat)), m.2 ≠ 0) ∧
    (∀ a ∈ ([([false], 1), ([true], 2)] : List (List Bool × Nat)),
      ∀ b ∈ ([([false], 1), ([true], 2)] : List (List Bool × Nat)),
        a.1 <+: b.1 → a.1 = b.1) ∧
    (WF (build 2 [([false], 1), ([true], 2)]) ∧
      ∃ n', (build 2 [([false], 1), ([true], 2)]).dp = .ok n') :=
  ⟨by decide, by decide, by decide,
    c10_dp_assertion_safety.1 2 [([false], 1), ([true], 2)]
      (by decide) (by decide) (by decide)⟩

/-- Claim C8 (as stated, refuted at a concrete input): `Tree::mark`
performs no validation of its color argument — marking 10.0.0.0/8 with
color 5 on a `K = 1` tree silently records color 5 in the trie, and
marking with reserved color 0 silently records 0; no error is signalled. -/
theorem c8_mark_silently_records_invalid_color :
    colorAt ((Tree.new 1).mark [10, 0, 0, 0] 8 5).root (bitsOf [10, 0, 0, 0] 8)
      = some 5 ∧
    colorAt ((Tree.new 1).mark [10, 0, 0, 0] 8 0).root (bitsOf [10, 0, 0, 0] 8)
      = some 0 :=
  ⟨rfl, rfl⟩

/-- Claim C8 amended: `mark` checks nothing and never aborts — for every
color argument, including `0` and values above `K`, the call completes and
records exactly that color at the marked path's endpoint. -/
theorem c8_amended_mark_records_any_color (t : Tree) (octets : List Nat)
    (len c : Nat) :
    colorAt ((t.mark octets len c).root) (bitsOf octets len) = some c :=
  colorAt_markNode_self t.colors (bitsOf octets len) t.root c

/-! ## Paths of emitted pairs -/

theorem depth_eq_of_children (c0 c1 : Option Node) (a a' : Nat) (b b' : List Nat)
    (d d' : List (Option Nat)) :
    (Node.mk c0 c1 a b d).depth = (Node.mk c0 c1 a' b' d').depth := by
  cases c0 <;> cases c1 <;> rfl

theorem depth_dpInternal (c0 c1 : Option Node) (color : Nat) (nr : List Nat)
    (dec : List (Option Nat)) :
    (dpInternal c0 c1 color nr dec).depth = (Node.mk c0 c1 0 [] []).depth := by
  cases c0 <;> cases c1 <;> rfl

/-- `dp` rewrites the vectors but never the tree shape. -/
theorem depth_dp : ∀ n n' : Node, n.dp = .ok n' → n'.depth = n.depth := by
  refine node_strong_ind (fun n => ∀ n', n.dp = .ok n' → n'.depth = n.depth) ?_
  intro c0 c1 col nr dec ih0 ih1 n' hdp
  cases c0 with
  | none =>
    cases c1 with
    | none =>
      simp only [Node.dp] at hdp
      by_cases hcol : col = 0
      · rw [if_pos hcol] at hdp
        simp at hdp
      · rw [if_neg hcol] at hdp
        simp only [Except.ok.injEq] at hdp
        subst hdp
        rfl
    | some t1 =>
      simp only [Node.dp] at hdp
      by_cases hcol : col = 0
      · rw [if_pos hcol] at hdp
        cases ht1 : t1.dp with
        | error e => rw [ht1] at hdp; simp at hdp
        | ok t1' =>
          rw [ht1] at hdp
          simp only [Except.ok.injEq] at hdp
          subst hdp
          rw [depth_dpInternal]
          have hd1 := ih1 t1 rfl t1' ht1
          simp only [Node.depth]
          omega
      · rw [if_neg hcol] at hdp
        simp at hdp
  | some t0 =>
    cases c1 with
    | none =>
      simp only [Node.dp] at hdp
      by_cases hcol : col = 0
      · rw [if_pos hcol] at hdp
        cases ht0 : t0.dp with
        | error e => rw [ht0] at hdp; simp at hdp
        | ok t0' =>
          rw [ht0] at hdp
          simp only [Except.ok.injEq] at hdp
          subst hdp
          rw [depth_dpInternal]
          have hd0 := ih0 t0 rfl t0' ht0
          simp only [Node.depth]
          omega
      · rw [if_neg hcol] at hdp
        simp at hdp
    | some t1 =>
      simp only [Node.dp] at hdp
      by_cases hcol : col = 0
      · rw [if_pos hcol] at hdp
        cases ht0 : t0.dp with
        | error e => rw [ht0] at hdp; simp at hdp
        | ok t0' =>
          rw [ht0] at hdp
          cases ht1 : t1.dp with
          | error e => rw [ht1] at hdp; simp at hdp
          | ok t1' =>
            rw [ht1] at hdp
            simp only [Except.ok.injEq] at hdp
            subst hdp
            rw [depth_dpInternal]
            have hd0 := ih0 t0 rfl t0' ht0
            have hd1 := ih1 t1 rfl t1' ht1
            simp only [Node.depth]
            omega
      · rw [if_neg hcol] at hdp
        simp at hdp

theorem mem_emitStep (dec : List (Option Nat)) (inh : Nat) (bits : List Bool)
    (p : List Bool × Nat) (h : p ∈ (emitStep dec inh bits).2) : p.1 = bits := by
  unfold emitStep at h
  split at h
  · simp at h
    rw [h]
  · simp at h

/-- Every pair a subtree emits extends the bit path the walk arrived with,
by at most the subtree's depth. -/
theorem generate_bits : ∀ n : Node, ∀ (inh : Nat) (bits : List Bool)
    (p : List Bool × Nat), p ∈ n.generate inh bits →
    bits <+: p.1 ∧ p.1.length ≤ bits.length + n.depth := by
  refine node_strong_ind (fun n => ∀ inh bits p, p ∈ n.generate inh bits →
    bits <+: p.1 ∧ p.1.length ≤ bits.length + n.depth) ?_
  intro c0 c1 col nr dec ih0 ih1 inh bits p hp
  cases c0 with
  | none =>
    cases c1 with
    | none =>
      simp only [Node.generate] at hp
      have := mem_emitStep dec inh bits p hp
      rw [this]
      exact ⟨List.prefix_refl _, by simp⟩
    | some t1 =>
      simp only [Node.generate, List.mem_append] at hp
      simp only [Node.depth]
      rcases hp with hp | hp
      · have := mem_emitStep dec inh bits p hp
        rw [this]
        exact ⟨List.prefix_refl _, by omega⟩
      · obtain ⟨hpre, hlen⟩ := ih1 t1 rfl _ (bits ++ [true]) p hp
        refine ⟨(List.prefix_append bits [true]).trans hpre, ?_⟩
        simp at hlen
        omega
  | some t0 =>
    cases c1 with
    | none =>
      simp only [Node.generate, List.mem_append] at hp
      simp only [Node.depth]
      rcases hp with hp | hp
      · have := mem_emitStep dec inh bits p hp
        rw [this]
        exact ⟨List.prefix_refl _, by omega⟩
      · obtain ⟨hpre, hlen⟩ := ih0 t0 rfl _ (bits ++ [false]) p hp
        refine ⟨(List.prefix_append bits [false]).trans hpre, ?_⟩
        simp at hlen
        omega
    | some t1 =>
      simp only [Node.generate, List.mem_append] at hp
      simp only [Node.depth]
      rcases hp with (hp | hp) | hp
      · have := mem_emitStep dec inh bits p hp
        rw [this]
        exact ⟨List.prefix_refl _, by omega⟩
      · obtain ⟨hpre, hlen⟩ := ih0 t0 rfl _ (bits ++ [false]) p hp
        refine ⟨(List.prefix_append bits [false]).trans hpre, ?_⟩
        simp at hlen
        have := Nat.le_max_left t0.depth t1.depth
        omega
      · obtain ⟨hpre, hlen⟩ := ih1 t1 rfl _ (bits ++ [true]) p hp
        refine ⟨(List.prefix_append bits [true]).trans hpre, ?_⟩
        simp at hlen
        have := Nat.le_max_right t0.depth t1.depth
        omega

theorem getD_replicate_none {α : Type} (k i : Nat) :
    (List.replicate k (none : Option α)).getD i none = none := by
  induction k generalizing i with
  | zero => rfl
  | succ k ih =>
    cases i with
    | zero => rfl
    | succ i => exact ih i

theorem emitStep_replicate_none (k inh : Nat) (bits : List Bool) :
    emitStep (List.replicate k none) inh bits = (inh, []) := by
  unfold emitStep
  rw [getD_replicate_none]

/-- With the root's decision vector cleared, nothing is emitted at the
root itself: every emitted pair has a nonempty bit path. -/
theorem generate_cleared_root_nonempty (c0 c1 : Option Node) (col : Nat)
    (nr : List Nat) (k : Nat) (p : List Bool × Nat)
    (hp : p ∈ (Node.mk c0 c1 col nr (List.replicate k none)).generate 0 []) :
    p.1 ≠ [] := by
  cases c0 with
  | none =>
    cases c1 with
    | none =>
      simp only [Node.generate, emitStep_replicate_none] at hp
      simp at hp
    | some t1 =>
      simp only [Node.generate, emitStep_replicate_none, List.nil_append] at hp
      obtain ⟨hpre, -⟩ := generate_bits t1 0 [true] p hp
      intro hnil
      rw [hnil] at hpre
      exact absurd (List.IsPrefix.length_le hpre) (by simp)
  | some t0 =>
    cases c1 with
    | none =>
      simp only [Node.generate, emitStep_replicate_none, List.nil_append] at hp
      obtain ⟨hpre, -⟩ := generate_bits t0 0 [false] p hp
      intro hnil
      rw [hnil] at hpre
      exact absurd (List.IsPrefix.length_le hpre) (by simp)
    | some t1 =>
      simp only [Node.generate, emitStep_replicate_none, List.nil_append,
        List.mem_append] at hp
      rcases hp with hp | hp
      · obtain ⟨hpre, -⟩ := generate_bits t0 0 [false] p hp
        intro hnil
        rw [hnil] at hpre
        exact absurd (List.IsPrefix.length_le hpre) (by simp)
      · obtain ⟨hpre, -⟩ := generate_bits t1 0 [true] p hp
        intro hnil
        rw [hnil] at hpre
        exact absurd (List.IsPrefix.length_le hpre) (by simp)

theorem emitV4_length (gws : List String) (p : List Bool × Nat) (r : Ipv4Route)
    (h : emitV4 gws p = some r) : r.length = p.1.length % 256 := by
  simp only [emitV4] at h
  split at h
  · cases hg : gatewayName gws p.2 with
    | none => rw [hg] at h; simp at h
    | some g =>
      rw [hg] at h
      simp only [Option.some.injEq] at h
      subst h
      rfl
  · simp at h

theorem mem_of_emitAllV4 (gws : List String) :
    ∀ (ps : List (List Bool × Nat)) (rs : List Ipv4Route),
      emitAllV4 gws ps = some rs → ∀ r ∈ rs, ∃ p ∈ ps, emitV4 gws p = some r := by
  intro ps
  induction ps with
  | nil =>
    intro rs h r hr
    simp only [emitAllV4, Option.some.injEq] at h
    subst h
    simp at hr
  | cons p ps ih =>
    intro rs h r hr
    simp only [emitAllV4] at h
    cases hp : emitV4 gws p with
    | none => rw [hp] at h; simp at h
    | some r0 =>
      rw [hp] at h
      cases hps : emitAllV4 gws ps with
      | none => rw [hps] at h; simp at h
      | some rs0 =>
        rw [hps] at h
        simp only [Option.some.injEq] at h
        subst h
        rcases List.mem_cons.mp hr with rfl | hr'
        · exact ⟨p, List.mem_cons_self _ _, hp⟩
        · obtain ⟨p', hp', he⟩ := ih rs0 hps r hr'
          exact ⟨p', List.mem_cons_of_mem _ hp', he⟩

/-- Claim C6: with `no_default_gateway = true` the root's decision vector
is overwritten with all-none after `dp`, so whenever `generate_v4`
completes, every emitted pair has a nonempty bit path and no route in the
output has length 0 (stated for tries of IPv4 depth, `depth ≤ 32`). -/
theorem c6_no_default_invariant (t : Tree) (gws : List String)
    (rs : List Ipv4Route) (hd : t.root.depth ≤ 32)
    (h : generateV4 t gws true = some rs) :
    (∀ r ∈ rs, r.length ≠ 0) ∧
    (∀ ps, generatePairs t true = .ok ps → ∀ p ∈ ps, p.1 ≠ []) := by
  have hpairs : ∀ ps, generatePairs t true = .ok ps →
      ∀ p ∈ ps, p.1 ≠ [] ∧ p.1.length ≤ 32 := by
    intro ps hps p hp
    simp only [generatePairs] at hps
    cases hdp : t.root.dp with
    | error e => rw [hdp] at hps; simp at hps
    | ok root' =>
      rw [hdp] at hps
      simp only [if_pos rfl, if_true, Except.ok.injEq] at hps
      subst hps
      constructor
      · exact generate_cleared_root_nonempty root'.child0 root'.child1 root'.color
          root'.numRoutes (t.colors + 1) p hp
      · obtain ⟨-, hlen⟩ := generate_bits _ 0 [] p hp
        have hdeq : (Node.mk root'.child0 root'.child1 root'.color root'.numRoutes
            (List.replicate (t.colors + 1) none)).depth = root'.depth := by
          cases root' with
          | mk a b c d e => exact depth_eq_of_children a b _ _ _ _ _ _
        have hroot : root'.depth = t.root.depth := depth_dp t.root root' hdp
        rw [hdeq, hroot] at hlen
        simp at hlen
        omega
  constructor
  · intro r hr
    simp only [generateV4] at h
    cases hps : generatePairs t true with
    | error e => rw [hps] at h; simp at h
    | ok ps =>
      rw [hps] at h
      obtain ⟨p, hpmem, hpe⟩ := mem_of_emitAllV4 gws ps rs h r hr
      obtain ⟨hne, hle⟩ := hpairs ps hps p hpmem
      rw [emitV4_length gws p r hpe, Nat.mod_eq_of_lt (by omega)]
      intro h0
      exact hne (List.length_eq_zero.mp h0)
  · intro ps hps p hp
    exact (hpairs ps hps p hp).1

/-- Claim C6 witness: four /2 leaves of color 1 (`K = 1`); with the
default suppressed the output is two /1 routes, both of nonzero length. -/
theorem c6_no_default_invariant_witness :
    (((((Tree.new 1).mark [0, 0, 0, 0] 2 1).mark [64, 0, 0, 0] 2 1).mark
        [128, 0, 0, 0] 2 1).mark [192, 0, 0, 0] 2 1).root.depth ≤ 32 ∧
    generateV4 (((((Tree.new 1).mark [0, 0, 0, 0] 2 1).mark [64, 0, 0, 0] 2 1).mark
        [128, 0, 0, 0] 2 1).mark [192, 0, 0, 0] 2 1) ["gw"] true =
      some [⟨[0, 0, 0, 0], netmaskV4 1, 1, "gw"⟩,
        ⟨[128, 0, 0, 0], netmaskV4 1, 1, "gw"⟩] ∧
    ∀ r ∈ [(⟨[0, 0, 0, 0], netmaskV4 1, 1, "gw"⟩ : Ipv4Route),
        ⟨[128, 0, 0, 0], netmaskV4 1, 1, "gw"⟩], r.length ≠ 0 :=
  ⟨by decide, rfl,
    (c6_no_default_invariant
      (((((Tree.new 1).mark [0, 0, 0, 0] 2 1).mark [64, 0, 0, 0] 2 1).mark
          [128, 0, 0, 0] 2 1).mark [192, 0, 0, 0] 2 1) ["gw"]
      [⟨[0, 0, 0, 0], netmaskV4 1, 1, "gw"⟩, ⟨[128, 0, 0, 0], netmaskV4 1, 1, "gw"⟩]
      (by decide) rfl).1⟩

/-! ## Bit packing and unpacking -/

set_option maxRecDepth 4096 in
theorem getOctet_getBits : ∀ x : Nat, x < 256 → getOctet (getBits x) = x := by
  decide

theorem getOctet_eq_getD_list (l : List Bool) :
    getOctet l = getOctet [l.getD 0 false, l.getD 1 false, l.getD 2 false,
      l.getD 3 false, l.getD 4 false, l.getD 5 false, l.getD 6 false,
      l.getD 7 false] := rfl

theorem getOctet_lt_bools : ∀ b0 b1 b2 b3 b4 b5 b6 b7 : Bool,
    getOctet [b0, b1, b2, b3, b4, b5, b6, b7] < 256 := by
  decide

theorem getOctet_lt (l : List Bool) : getOctet l < 256 := by
  rw [getOctet_eq_getD_list]
  exact getOctet_lt_bools _ _ _ _ _ _ _ _

theorem octetBits_getOctet_bools : ∀ b0 b1 b2 b3 b4 b5 b6 b7 : Bool,
    octetBits (getOctet [b0, b1, b2, b3, b4, b5, b6, b7])
      = [b0, b1, b2, b3, b4, b5, b6, b7] := by
  decide

theorem eq_explicit_of_length_eight (l : List Bool) (h : l.length = 8) :
    l = [l.getD 0 false, l.getD 1 false, l.getD 2 false, l.getD 3 false,
      l.getD 4 false, l.getD 5 false, l.getD 6 false, l.getD 7 false] := by
  cases l with
  | nil => simp at h
  | cons b0 l =>
  cases l with
  | nil => simp at h
  | cons b1 l =>
  cases l with
  | nil => simp at h
  | cons b2 l =>
  cases l with
  | nil => simp at h
  | cons b3 l =>
  cases l with
  | nil => simp at h
  | cons b4 l =>
  cases l with
  | nil => simp at h
  | cons b5 l =>
  cases l with
  | nil => simp at h
  | cons b6 l =>
  cases l with
  | nil => simp at h
  | cons b7 l =>
  cases l with
  | nil => rfl
  | cons b8 l => simp at h

theorem octetBits_getOctet (l : List Bool) (h : l.length = 8) :
    octetBits (getOctet l) = l := by
  rw [getOctet_eq_getD_list, octetBits_getOctet_bools]
  exact (eq_explicit_of_length_eight l h).symm

/-- `(a <<< 8) ||| b` is plain place-value composition when `b` fits. -/
theorem shiftLeft_eight_lor (a b : Nat) (hb : b < 256) :
    (a <<< 8) ||| b = 2 ^ 8 * a + b := by
  apply Nat.eq_of_testBit_eq
  intro i
  rw [Nat.testBit_or, Nat.testBit_mul_pow_two_add a hb i, Nat.testBit_shiftLeft]
  by_cases hi : i < 8
  · rw [if_pos hi]
    have h8 : ¬(i ≥ 8) := by omega
    simp [h8]
  · rw [if_neg hi]
    have h8 : 8 ≤ i := by omega
    have hb2 : b < 2 ^ 8 := hb
    have hb' : b.testBit i = false :=
      Nat.testBit_lt_two_pow
        (lt_of_lt_of_le hb2 (Nat.pow_le_pow_right (by omega) h8))
    simp [h8, hb']

theorem getSegment_getBits (hi lo : Nat) (hhi : hi < 256) (hlo : lo < 256) :
    getSegment (getBits hi ++ getBits lo) = 256 * hi + lo := by
  have h1 : getSegment (getBits hi ++ getBits lo)
      = (getOctet (getBits hi) <<< 8) ||| getOctet (getBits lo) := rfl
  rw [h1, getOctet_getBits hi hhi, getOctet_getBits lo hlo,
    shiftLeft_eight_lor hi lo hlo]
  rfl

/-- The 16 bits of `(a <<< 8) ||| b` are the bits of `a` then of `b`. -/
theorem segmentBits_lor (a b : Nat) (hb : b < 256) :
    segmentBits ((a <<< 8) ||| b) = octetBits a ++ octetBits b := by
  rw [shiftLeft_eight_lor a b hb]
  apply List.ext_getElem
  · simp [segmentBits, octetBits]
  intro n h1 h2
  have hn : n < 16 := by simpa [segmentBits] using h1
  simp only [segmentBits, List.getElem_map, List.getElem_range]
  rw [Nat.testBit_mul_pow_two_add a hb (15 - n)]
  by_cases hn8 : n < 8
  · rw [List.getElem_append_left (by simpa [octetBits] using hn8)]
    simp only [octetBits, List.getElem_map, List.getElem_range]
    rw [if_neg (by omega)]
    congr 1
    omega
  · rw [List.getElem_append_right (by simp [octetBits]; omega)]
    simp only [octetBits, List.getElem_map, List.getElem_range, List.length_map,
      List.length_range]
    rw [if_pos (by omega)]
    congr 1
    omega

theorem segmentBits_getSegment (l : List Bool) (h : l.length = 16) :
    segmentBits (getSegment l) = l := by
  have ht : (l.take 8).length = 8 := by simp [h]
  have hd : (l.drop 8).length = 8 := by simp [h]
  show segmentBits ((getOctet (l.take 8) <<< 8) ||| getOctet (l.drop 8)) = l
  rw [segmentBits_lor _ _ (getOctet_lt _),
    octetBits_getOctet _ ht, octetBits_getOctet _ hd, List.take_append_drop]

/-- Decoding the four packed octets recovers all 32 padded bits. -/
theorem flatten_octets_32 (l : List Bool) (h : l.length = 32) :
    ((octetsOfBits l).map octetBits).flatten = l := by
  have l1 : (l.take 8).length = 8 := by simp [h]
  have l2 : ((l.drop 8).take 8).length = 8 := by simp [h]
  have l3 : ((l.drop 16).take 8).length = 8 := by simp [h]
  have l4 : ((l.drop 24).take 8).length = 8 := by simp [h]
  simp only [octetsOfBits, List.map_cons, List.map_nil, List.flatten_cons,
    List.flatten_nil]
  rw [octetBits_getOctet _ l1, octetBits_getOctet _ l2, octetBits_getOctet _ l3,
    octetBits_getOctet _ l4, List.append_nil]
  have e4 : (l.drop 24).take 8 = l.drop 24 := List.take_of_length_le (by simp [h])
  rw [e4]
  have d1 : (l.drop 8).drop 8 = l.drop 16 := by rw [List.drop_drop]
  have d2 : (l.drop 16).drop 8 = l.drop 24 := by rw [List.drop_drop]
  conv_rhs => rw [← List.take_append_drop 8 l]
  congr 1
  conv_rhs => rw [← List.take_append_drop 8 (l.drop 8)]
  rw [d1]
  congr 1
  conv_rhs => rw [← List.take_append_drop 8 (l.drop 16)]
  rw [d2]

/-- Decoding the eight packed segments recovers all 128 padded bits. -/
theorem flatten_segments_128 (l : List Bool) (h : l.length = 128) :
    ((segmentsOfBits l).map segmentBits).flatten = l := by
  have l1 : (l.take 16).length = 16 := by simp [h]
  have l2 : ((l.drop 16).take 16).length = 16 := by simp [h]
  have l3 : ((l.drop 32).take 16).length = 16 := by simp [h]
  have l4 : ((l.drop 48).take 16).length = 16 := by simp [h]
  have l5 : ((l.drop 64).take 16).length = 16 := by simp [h]
  have l6 : ((l.drop 80).take 16).length = 16 := by simp [h]
  have l7 : ((l.drop 96).take 16).length = 16 := by simp [h]
  have l8 : ((l.drop 112).take 16).length = 16 := by simp [h]
  simp only [segmentsOfBits, List.map_cons, List.map_nil, List.flatten_cons,
    List.flatten_nil]
  rw [segmentBits_getSegment _ l1, segmentBits_getSegment _ l2,
    segmentBits_getSegment _ l3, segmentBits_getSegment _ l4,
    segmentBits_getSegment _ l5, segmentBits_getSegment _ l6,
    segmentBits_getSegment _ l7, segmentBits_getSegment _ l8, List.append_nil]
  have e8 : (l.drop 112).take 16 = l.drop 112 :=
    List.take_of_length_le (by simp [h])
  rw [e8]
  have d1 : (l.drop 16).drop 16 = l.drop 32 := by rw [List.drop_drop]
  have d2 : (l.drop 32).drop 16 = l.drop 48 := by rw [List.drop_drop]
  have d3 : (l.drop 48).drop 16 = l.drop 64 := by rw [List.drop_drop]
  have d4 : (l.drop 64).drop 16 = l.drop 80 := by rw [List.drop_drop]
  have d5 : (l.drop 80).drop 16 = l.drop 96 := by rw [List.drop_drop]
  have d6 : (l.drop 96).drop 16 = l.drop 112 := by rw [List.drop_drop]
  conv_rhs => rw [← List.take_append_drop 16 l]
  congr 1
  conv_rhs => rw [← List.take_append_drop 16 (l.drop 16)]
  rw [d1]
  congr 1
  conv_rhs => rw [← List.take_append_drop 16 (l.drop 32)]
  rw [d2]
  congr 1
  conv_rhs => rw [← List.take_append_drop 16 (l.drop 48)]
  rw [d3]
  congr 1
  conv_rhs => rw [← List.take_append_drop 16 (l.drop 64)]
  rw [d4]
  congr 1
  conv_rhs => rw [← List.take_append_drop 16 (l.drop 80)]
  rw [d5]
  congr 1
  conv_rhs => rw [← List.take_append_drop 16 (l.drop 96)]
  rw [d6]

theorem emitV4_addr (gws : List String) (p : List Bool × Nat) (r : Ipv4Route)
    (h : emitV4 gws p = some r) (hL : p.1.length ≤ 32) :
    r.length = p.1.length ∧
    (r.prefixOctets.map octetBits).flatten
      = p.1 ++ List.replicate (32 - p.1.length) false := by
  have hlen := emitV4_length gws p r h
  have hoct : r.prefixOctets
      = octetsOfBits (p.1.take 32 ++ List.replicate (32 - p.1.length) false) := by
    simp only [emitV4] at h
    split at h
    · cases hg : gatewayName gws p.2 with
      | none => rw [hg] at h; simp at h
      | some g =>
        rw [hg] at h
        simp only [Option.some.injEq] at h
        subst h
        rfl
    · simp at h
  have htake : p.1.take 32 = p.1 := List.take_of_length_le hL
  have hplen : (p.1 ++ List.replicate (32 - p.1.length) false).length = 32 := by
    simp
    omega
  constructor
  · rw [hlen, Nat.mod_eq_of_lt (by omega)]
  · rw [hoct, htake, flatten_octets_32 _ hplen]

theorem emitV6_length (gws : List String) (p : List Bool × Nat) (r : Ipv6Route)
    (h : emitV6 gws p = some r) : r.length = p.1.length % 256 := by
  simp only [emitV6] at h
  split at h
  · cases hg : gatewayName gws p.2 with
    | none => rw [hg] at h; simp at h
    | some g =>
      rw [hg] at h
      simp only [Option.some.injEq] at h
      subst h
      rfl
  · simp at h

theorem emitV6_addr (gws : List String) (p : List Bool × Nat) (r : Ipv6Route)
    (h : emitV6 gws p = some r) (hL : p.1.length ≤ 128) :
    r.length = p.1.length ∧
    (r.prefixSegments.map segmentBits).flatten
      = p.1 ++ List.replicate (128 - p.1.length) false := by
  have hlen := emitV6_length gws p r h
  have hseg : r.prefixSegments
      = segmentsOfBits (p.1.take 128 ++ List.replicate (128 - p.1.length) false) := by
    simp only [emitV6] at h
    split at h
    · cases hg : gatewayName gws p.2 with
      | none => rw [hg] at h; simp at h
      | some g =>
        rw [hg] at h
        simp only [Option.some.injEq] at h
        subst h
        rfl
    · simp at h
  have htake : p.1.take 128 = p.1 := List.take_of_length_le hL
  have hplen : (p.1 ++ List.replicate (128 - p.1.length) false).length = 128 := by
    simp
    omega
  constructor
  · rw [hlen, Nat.mod_eq_of_lt (by omega)]
  · rw [hseg, htake, flatten_segments_128 _ hplen]

/-- Claim C9: bit unpacking and packing are mutually inverse —
`get_octet(get_bits(x)) = x` for every byte, and likewise through
`get_segment` for 16-bit values — and every emitted route's address
carries exactly the pair's `L` path bits MSB-first followed by zero bits
up to the address width (32 or 128), with length field `L`. -/
theorem c9_emitter_roundtrip :
    (∀ x : Nat, x < 256 → getOctet (getBits x) = x) ∧
    (∀ hi lo : Nat, hi < 256 → lo < 256 →
      getSegment (getBits hi ++ getBits lo) = 256 * hi + lo) ∧
    (∀ (gws : List String) (p : List Bool × Nat) (r : Ipv4Route),
      emitV4 gws p = some r → p.1.length ≤ 32 →
      r.length = p.1.length ∧
      (r.prefixOctets.map octetBits).flatten
        = p.1 ++ List.replicate (32 - p.1.length) false) ∧
    (∀ (gws : List String) (p : List Bool × Nat) (r : Ipv6Route),
      emitV6 gws p = some r → p.1.length ≤ 128 →
      r.length = p.1.length ∧
      (r.prefixSegments.map segmentBits).flatten
        = p.1 ++ List.replicate (128 - p.1.length) false) :=
  ⟨getOctet_getBits, getSegment_getBits, emitV4_addr, emitV6_addr⟩

/-- Claim C9 witness: the roundtrips at byte 170 and segment halves
18/52, and the emitted routes for the pair `(path "1", color 1)` in both
families. -/
theorem c9_emitter_roundtrip_witness :
    ((170 : Nat) < 256 ∧ getOctet (getBits 170) = 170) ∧
    ((18 : Nat) < 256 ∧ (52 : Nat) < 256 ∧
      getSegment (getBits 18 ++ getBits 52) = 256 * 18 + 52) ∧
    (emitV4 ["gw"] ([true], 1)
        = some ⟨[128, 0, 0, 0], netmaskV4 1, 1, "gw"⟩ ∧
      (([128, 0, 0, 0] : List Nat).map octetBits).flatten
        = [true] ++ List.replicate 31 false) ∧
    (emitV6 ["gw"] ([true], 1)
        = some ⟨[32768, 0, 0, 0, 0, 0, 0, 0], netmaskV6 1, 1, "gw"⟩ ∧
      (([32768, 0, 0, 0, 0, 0, 0, 0] : List Nat).map segmentBits).flatten
        = [true] ++ List.replicate 127 false) :=
  ⟨⟨by decide, c9_emitter_roundtrip.1 170 (by decide)⟩,
   ⟨by decide, by decide, c9_emitter_roundtrip.2.1 18 52 (by decide) (by decide)⟩,
   ⟨rfl, (c9_emitter_roundtrip.2.2.1 ["gw"] ([true], 1)
      ⟨[128, 0, 0, 0], netmaskV4 1, 1, "gw"⟩ rfl (by decide)).2⟩,
   ⟨rfl, (c9_emitter_roundtrip.2.2.2 ["gw"] ([true], 1)
      ⟨[32768, 0, 0, 0, 0, 0, 0, 0], netmaskV6 1, 1, "gw"⟩ rfl (by decide)).2⟩⟩

end Lessroutes
